import Mathlib
/-!
Verification of the Cross-Market-Analysis ingestion and query pipeline.

Shallow embedding of the repository sources:
  * src/sql_operation.py        - SQLite store (Cryptocurrencies, Crypto_prices,
                                  oil_price, stock_price tables)
  * src/coin_daily_price.py     - CoinGecko market-chart fetcher and daily-price
                                  normalizer
  * src/collect_coingecko_data.py - paginated market-listing fetcher
  * src/stock_price.py          - Yahoo Finance OHLCV fetcher and normalizer
  * src/oil_price.py            - WTI CSV normalizer
  * src/data_report.py          - read-only query layer

Modelling conventions:
  * SQLite tables are lists of typed rows; the table-as-set reading is recovered
    through `lookupKey` (lookup by primary key) and key-`Nodup` invariants.
  * `REPLACE INTO ... executemany` is a left fold of a delete-then-append step
    (`replaceRow`), matching SQLite REPLACE semantics row by row.
  * Dates are the `YYYY-MM-DD` strings the Python code stores; SQLite compares
    TEXT dates lexicographically, which agrees with chronological order.
  * Prices are rationals; Python `round(x, 6)` is modelled as round-half-even
    to six decimals on rationals.
  * HTTP traffic is an oracle `Nat -> HttpResp` giving the response to the
    n-th request for a unit; `raise_for_status` raising is an `Except.error`
    or, where the source catches `RequestException`, a `none` result.
-/

/-! ### Generic store core: SQLite REPLACE and key lookup -/

/-- Lookup of the first row of `s` whose key is `k` (a SQLite point query on
the primary key; unique when the key column is `Nodup`). -/
def lookupKey {α K : Type} [DecidableEq K] (key : α → K) (k : K) (s : List α) : Option α :=
  s.find? fun x => decide (key x = k)

/-- Effect of one `REPLACE INTO` of row `r`: SQLite deletes every row that
conflicts with `r` on the primary key, then inserts `r`. -/
def replaceRow {α K : Type} [DecidableEq K] (key : α → K) (s : List α) (r : α) : List α :=
  (s.filter fun x => decide (key x ≠ key r)) ++ [r]

/-- Effect of `conn.executemany("REPLACE INTO ...", rows)`: the rows are
applied sequentially in list order. -/
def replaceInto {α K : Type} [DecidableEq K] (key : α → K) (s : List α) (rows : List α) : List α :=
  rows.foldl (replaceRow key) s

/-- Last row of `rows` (in list order) whose key is `k`. -/
def lastKeyed {α K : Type} [DecidableEq K] (key : α → K) (k : K) (rows : List α) : Option α :=
  (rows.filter fun r => decide (key r = k)).getLast?

/-! ### Row types of the four tables (src/sql_operation.py, CREATE TABLE statements) -/

/-- Row of `Crypto_prices` (coin_id, date, price_usd), PRIMARY KEY (coin_id, date). -/
structure CryptoPriceRow where
  coin_id : String
  date : String
  price_usd : ℚ
deriving DecidableEq, Repr

/-- Composite primary key of `Crypto_prices`. -/
def cryptoKey (r : CryptoPriceRow) : String × String := (r.coin_id, r.date)

/-- Row of `oil_price` (date, price_usd), PRIMARY KEY date. -/
structure OilPriceRow where
  date : String
  price_usd : ℚ
deriving DecidableEq, Repr

/-- Primary key of `oil_price`. -/
def oilKey (r : OilPriceRow) : String := r.date

/-- Row of `stock_price` (date, open, high, low, close, volume, ticker),
PRIMARY KEY (ticker, date).  The `open` column is named `open_` because
`open` is a Lean keyword. -/
structure StockPriceRow where
  date : String
  open_ : ℚ
  high : ℚ
  low : ℚ
  close : ℚ
  volume : Int
  ticker : String
deriving DecidableEq, Repr

/-- Composite primary key of `stock_price`. -/
def stockKey (r : StockPriceRow) : String × String := (r.ticker, r.date)

/-- Row of the `Cryptocurrencies` snapshot table, PRIMARY KEY id
(schema of create_cryptocurrencies_table).  Nullable numeric columns are
`Option` valued. -/
structure CoinRow where
  id : String
  symbol : String
  name : String
  current_price : Option ℚ
  market_cap : Option ℚ
  market_cap_rank : Option Int
  total_volume : Option ℚ
  circulating_supply : Option ℚ
  total_supply : Option ℚ
  ath : Option ℚ
  atl : Option ℚ
  last_updated : String
deriving DecidableEq, Repr

/-- Primary key of `Cryptocurrencies`. -/
def coinKey (r : CoinRow) : String := r.id

/-! ### The three historical-table insert functions (src/sql_operation.py)

Each Python function creates the table if absent (no row effect), runs
`executemany("REPLACE INTO ...", rows)`, commits, and returns `len(rows)`.
State passing makes the table explicit: input table in, (table, count) out. -/

/-- insert_crypto_prices (src/sql_operation.py lines 119-139). -/
def insert_crypto_prices (rows : List CryptoPriceRow) (tbl : List CryptoPriceRow) :
    List CryptoPriceRow × Nat :=
  (replaceInto cryptoKey tbl rows, rows.length)

/-- insert_oil_prices (src/sql_operation.py lines 180-200). -/
def insert_oil_prices (rows : List OilPriceRow) (tbl : List OilPriceRow) :
    List OilPriceRow × Nat :=
  (replaceInto oilKey tbl rows, rows.length)

/-- insert_stock_prices (src/sql_operation.py lines 248-268). -/
def insert_stock_prices (rows : List StockPriceRow) (tbl : List StockPriceRow) :
    List StockPriceRow × Nat :=
  (replaceInto stockKey tbl rows, rows.length)

/-! ### Transactional model of the snapshot refresh (src/sql_operation.py,
push_dataframe_to_table, lines 61-82)

A SQLite connection in the Python sqlite3 default mode opens a deferred
transaction on the first data-modifying statement and makes changes visible
to other readers only at COMMIT; closing the connection without committing
rolls the transaction back.  `committed` is what concurrent readers see,
`pending` is the uncommitted working state of the writer connection. -/

/-- One table of the store as seen through a writer connection. -/
structure DBTable (α : Type) where
  committed : List α
  pending : List α
deriving DecidableEq, Repr

/-- Statements push_dataframe_to_table issues against the Cryptocurrencies
table, in order: the `conn.commit()` inside create_cryptocurrencies_table
(the CREATE TABLE IF NOT EXISTS itself does not touch rows), the
`DELETE FROM Cryptocurrencies`, the row inserts of `df.to_sql(..., append)`,
and the final `conn.commit()`. -/
inductive SqlStep (α : Type) where
  | commitStep : SqlStep α
  | deleteAll : SqlStep α
  | appendRows : List α → SqlStep α
deriving DecidableEq, Repr

/-- Strict INSERT of a batch (df.to_sql with if_exists=append): each row must
not collide with an existing primary key, otherwise sqlite3 raises
IntegrityError.  Returns `none` on a violation. -/
def appendStrict {α K : Type} [DecidableEq K] (key : α → K) :
    List α → List α → Option (List α)
  | cur, [] => some cur
  | cur, r :: rs =>
      if cur.any (fun x => decide (key x = key r)) then none
      else appendStrict key (cur ++ [r]) rs

/-- Effect of one statement on the table as seen through the connection.
An `Except.error` is a raised sqlite3 exception. -/
def applyStep {α K : Type} [DecidableEq K] (key : α → K) (db : DBTable α) :
    SqlStep α → Except String (DBTable α)
  | .commitStep => .ok { db with committed := db.pending }
  | .deleteAll => .ok { db with pending := [] }
  | .appendRows rows =>
      match appendStrict key db.pending rows with
      | some p => .ok { db with pending := p }
      | none => .error "IntegrityError: UNIQUE constraint failed"

/-- Run a statement sequence.  When a statement raises, the Python code
reaches its `finally` block and closes the connection without committing,
which rolls the open transaction back: readers keep the committed state. -/
def runSteps {α K : Type} [DecidableEq K] (key : α → K) (db : DBTable α) :
    List (SqlStep α) → Except (DBTable α) (DBTable α)
  | [] => .ok db
  | s :: ss =>
      match applyStep key db s with
      | .ok db2 => runSteps key db2 ss
      | .error _ => .error { committed := db.committed, pending := db.committed }

/-- Table state a reader observes, whether the run committed or rolled back. -/
def dbAfter {α : Type} : Except (DBTable α) (DBTable α) → DBTable α
  | .ok db => db
  | .error db => db

/-- Statement sequence of push_dataframe_to_table for a DataFrame holding
the rows `df`. -/
def pushSteps {α : Type} (df : List α) : List (SqlStep α) :=
  [SqlStep.commitStep, SqlStep.deleteAll, SqlStep.appendRows df, SqlStep.commitStep]

/-- push_dataframe_to_table (src/sql_operation.py lines 61-82): full refresh of
the Cryptocurrencies snapshot table; returns the row count on success. -/
def push_dataframe_to_table (df : List CoinRow) (db : DBTable CoinRow) :
    Except (DBTable CoinRow) (DBTable CoinRow × Nat) :=
  match runSteps coinKey db (pushSteps df) with
  | .ok db2 => .ok (db2, df.length)
  | .error db2 => .error db2

/-! ### Rate-limited fetchers (src/coin_daily_price.py, src/collect_coingecko_data.py,
src/stock_price.py)

Configured constants of the three fetchers. -/

/-- MAX_RETRIES of coin_daily_price.py and collect_coingecko_data.py. -/
def MAX_RETRIES : Nat := 3

/-- RETRY_DELAY (seconds) of coin_daily_price.py and collect_coingecko_data.py. -/
def RETRY_DELAY : Nat := 60

/-- NUM_PAGES of collect_coingecko_data.py. -/
def NUM_PAGES : Nat := 5

/-- RATE_LIMIT_RETRIES of stock_price.py. -/
def RATE_LIMIT_RETRIES : Nat := 4

/-- TOP_COIN_IDS of coin_daily_price.py. -/
def TOP_COIN_IDS : List String :=
  ["bitcoin", "ethereum", "tether", "binancecoin", "solana", "ripple",
    "usd-coin", "cardano", "avalanche-2", "dogecoin"]

/-- An HTTP response: status code and (parsed) body.  The network is an
oracle mapping the attempt number to the response it returns. -/
structure HttpResp (α : Type) where
  status : Nat
  body : α
deriving DecidableEq, Repr

/-- Observable effects of a fetch: number of requests sent and the sleeps
performed (seconds, in order). -/
structure FetchLog where
  requests : Nat
  sleeps : List Nat
deriving DecidableEq, Repr

/-- Body of one iteration of the retry loop of fetch_market_chart
(src/coin_daily_price.py lines 41-59).  The source line
`return response.json()` sits inside the loop body directly under the `try`,
AFTER the 429 branch, so every path of the body returns:
  * status 429 and attempt < MAX_RETRIES - 1: print, sleep RETRY_DELAY,
    then fall through to `return response.json()` - the throttled body is
    returned as the successful result;
  * status 429 on the last attempt: raise_for_status raises, the
    `except RequestException` handler returns None;
  * any other status >= 400: raise_for_status raises, handler returns None;
  * otherwise: the body is returned. -/
def fetchAttemptBody {α : Type} (resp : Nat → HttpResp α) (attempt : Nat)
    (log : FetchLog) : Option α × FetchLog :=
  let r := resp attempt
  let log1 : FetchLog := ⟨log.requests + 1, log.sleeps⟩
  if r.status = 429 then
    if attempt < MAX_RETRIES - 1 then
      (some r.body, ⟨log1.requests, log1.sleeps ++ [RETRY_DELAY]⟩)
    else
      (none, log1)
  else if 400 ≤ r.status then
    (none, log1)
  else
    (some r.body, log1)

/-- fetch_market_chart (src/coin_daily_price.py lines 41-59).  Because every
path of the loop body returns (see fetchAttemptBody), the
`for attempt in range(MAX_RETRIES)` loop never advances past its first
iteration: the function is the body at attempt 0 (when MAX_RETRIES > 0,
else the trailing `return None`). -/
def fetch_market_chart {α : Type} (resp : Nat → HttpResp α) : Option α × FetchLog :=
  if 0 < MAX_RETRIES then fetchAttemptBody resp 0 ⟨0, []⟩ else (none, ⟨0, []⟩)

/-- Retry loop of fetch_page (src/collect_coingecko_data.py lines 20-34),
with `fuel = MAX_RETRIES - attempt` making the recursion structural.  Unlike
fetch_market_chart, the `return response.json()` here is inside the non-429
branch, so a 429 with attempts left sleeps and loops; a 429 on the final
attempt (or any other error status) hits raise_for_status with no handler:
the exception propagates (`Except.error`).  The fuel-0 case models the line
after the loop, `return response.json()`, which the source itself marks
unreachable for MAX_RETRIES > 0. -/
def fetchPageGo {α : Type} (resp : Nat → HttpResp α) :
    Nat → Nat → FetchLog → Except FetchLog (α × FetchLog)
  | 0, _, log => .error log
  | fuel + 1, attempt, log =>
    let r := resp attempt
    let log1 : FetchLog := ⟨log.requests + 1, log.sleeps⟩
    if r.status = 429 then
      if attempt < MAX_RETRIES - 1 then
        fetchPageGo resp fuel (attempt + 1) ⟨log1.requests, log1.sleeps ++ [RETRY_DELAY]⟩
      else .error log1
    else if 400 ≤ r.status then .error log1
    else .ok (r.body, log1)

/-- fetch_page (src/collect_coingecko_data.py lines 20-34). -/
def fetch_page {α : Type} (resp : Nat → HttpResp α) : Except FetchLog (α × FetchLog) :=
  fetchPageGo resp MAX_RETRIES 0 ⟨0, []⟩

/-- Page loop of fetch_all_pages (src/collect_coingecko_data.py lines 37-46):
`all_data.extend(fetch_page(page))` for pages 1..NUM_PAGES.  An exception
raised by fetch_page is not caught and aborts the loop. -/
def fetchAllPagesGo {α : Type} (resp : Nat → Nat → HttpResp (List α)) :
    Nat → Nat → List α → Except FetchLog (List α)
  | 0, _, acc => .ok acc
  | fuel + 1, page, acc =>
    match fetch_page (resp page) with
    | .ok (data, _) => fetchAllPagesGo resp fuel (page + 1) (acc ++ data)
    | .error log => .error log

/-- fetch_all_pages (src/collect_coingecko_data.py lines 37-46). -/
def fetch_all_pages {α : Type} (resp : Nat → Nat → HttpResp (List α)) :
    Except FetchLog (List α) :=
  fetchAllPagesGo resp NUM_PAGES 1 []

/-- fetch_all_daily_prices (src/coin_daily_price.py lines 62-72): fetches
every coin of TOP_COIN_IDS and stores the result under the coin id when
fetch_market_chart returned data; a coin whose fetch returned None is left
out of the result dictionary. -/
def fetch_all_daily_prices {α : Type} (resp : String → Nat → HttpResp α) :
    List (String × α) :=
  TOP_COIN_IDS.foldl (fun acc coin =>
    match (fetch_market_chart (resp coin)).1 with
    | some d => acc ++ [(coin, d)]
    | none => acc) []

/-! ### Equity fetch and normalizer (src/stock_price.py) -/

/-- Raw Yahoo Finance OHLCV bar as yf.Ticker().history returns it: indexed
by date, any field possibly missing (NaN).  Dates are modelled as the ISO
`YYYY-MM-DD` strings the pipeline later stores. -/
structure YfBar where
  date : String
  px_open : Option ℚ
  px_high : Option ℚ
  px_low : Option ℚ
  px_close : Option ℚ
  px_volume : Option ℚ
deriving DecidableEq, Repr

/-- `ticker.replace("^", "")` in download_ticker_history: removes every
caret from the ticker symbol. -/
def stripCaret (t : String) : String :=
  String.mk (t.toList.filter fun c => decide (c ≠ '^'))

/-- Row of the frame download_ticker_history returns: the renamed OHLCV
columns plus a `ticker` column holding the caret-stripped symbol. -/
structure TickerBar where
  date : String
  px_open : Option ℚ
  px_high : Option ℚ
  px_low : Option ℚ
  px_close : Option ℚ
  px_volume : Option ℚ
  ticker : String
deriving DecidableEq, Repr

/-- download_ticker_history (src/stock_price.py lines 38-68): on an empty
frame returns it unchanged; otherwise renames Open/High/Low/Close/Volume,
keeps those columns, and sets `df["ticker"] = ticker.replace("^", "")`. -/
def download_ticker_history (ticker : String) (bars : List YfBar) : List TickerBar :=
  if bars.isEmpty then []
  else bars.map fun b =>
    ⟨b.date, b.px_open, b.px_high, b.px_low, b.px_close, b.px_volume, stripCaret ticker⟩

/-- Per-ticker retry loop of download_all_tickers (src/stock_price.py lines
79-89), with `fuel = RATE_LIMIT_RETRIES + 1 - attempt`.  The oracle `hist`
returns `none` when that attempt raises YFRateLimitError and the downloaded
raw bars otherwise.  After RATE_LIMIT_RETRIES rate-limited attempts the
ticker is skipped with an empty frame. -/
def tickerFetchGo (hist : String → Nat → Option (List YfBar)) (t : String) :
    Nat → Nat → List TickerBar
  | 0, _ => []
  | fuel + 1, attempt =>
    match hist t attempt with
    | some bars => download_ticker_history t bars
    | none =>
        if attempt < RATE_LIMIT_RETRIES then tickerFetchGo hist t fuel (attempt + 1)
        else []

/-- Result frame of the retry loop for one ticker (attempts start at 1). -/
def tickerFetch (hist : String → Nat → Option (List YfBar)) (t : String) :
    List TickerBar :=
  tickerFetchGo hist t RATE_LIMIT_RETRIES 1

/-- Truncation toward zero: the behaviour of `astype(int)` and `int()` on a
float value. -/
def truncRat (q : ℚ) : Int := if 0 ≤ q then ⌊q⌋ else ⌈q⌉

/-- Row of the combined frame of download_all_tickers after
`dropna(subset=[open, high, low, close, volume])` and
`combined["volume"].astype(int)`. -/
structure CombinedBar where
  date : String
  px_open : ℚ
  px_high : ℚ
  px_low : ℚ
  px_close : ℚ
  volume : Int
  ticker : String
deriving DecidableEq, Repr

/-- dropna over the five OHLCV columns followed by the integer cast of the
volume column (src/stock_price.py lines 98-99). -/
def dropnaCast (rows : List TickerBar) : List CombinedBar :=
  rows.filterMap fun b =>
    match b.px_open, b.px_high, b.px_low, b.px_close, b.px_volume with
    | some o, some h, some l, some c, some v =>
        some ⟨b.date, o, h, l, c, truncRat v, b.ticker⟩
    | _, _, _, _, _ => none

/-- Date-keyed total preorder used for the sorts of the pipeline
(pandas sort_index, Python sorted, SQL ORDER BY date on TEXT dates). -/
def leBy {α : Type} (f : α → String) (a b : α) : Prop := f a ≤ f b

instance {α : Type} (f : α → String) : DecidableRel (leBy f) := fun a b =>
  inferInstanceAs (Decidable (f a ≤ f b))

instance {α : Type} (f : α → String) : IsTotal α (leBy f) :=
  ⟨fun a b => le_total (f a) (f b)⟩

instance {α : Type} (f : α → String) : IsTrans α (leBy f) :=
  ⟨fun _ _ _ => le_trans⟩

/-- Frame accumulation loop of download_all_tickers (src/stock_price.py
lines 75-93): a ticker whose loop produced an empty frame is not appended. -/
def tickerFrames (hist : String → Nat → Option (List YfBar))
    (tickers : List String) : List (List TickerBar) :=
  tickers.foldl (fun fs t =>
    let df := tickerFetch hist t
    if df.isEmpty then fs else fs ++ [df]) []

/-- download_all_tickers (src/stock_price.py lines 71-102): concatenates the
non-empty per-ticker frames, drops rows with a missing OHLCV field, casts
volume to int, and sorts by the date index.  (pandas sort_index is modelled
by a stable sort on the date; rows of distinct tickers sharing a date have
no specified relative order in either.) -/
def download_all_tickers (hist : String → Nat → Option (List YfBar))
    (tickers : List String) : List CombinedBar :=
  let frames := tickerFrames hist tickers
  if frames.isEmpty then []
  else List.insertionSort (leBy CombinedBar.date) (dropnaCast frames.flatten)

/-- Round-half-even to an integer (the rounding of Python round()). -/
def roundHalfEven (q : ℚ) : Int :=
  let f := ⌊q⌋
  if q - f < 1/2 then f
  else if 1/2 < q - f then f + 1
  else if f % 2 = 0 then f else f + 1

/-- Python round(x, 6): round-half-even at the sixth decimal. -/
def round6 (q : ℚ) : ℚ := (roundHalfEven (q * 1000000) : ℚ) / 1000000

/-- prepare_stock_price_rows (src/stock_price.py lines 105-124): formats the
date, rounds the four price columns to 6 decimals, keeps the integer volume
and the (caret-stripped) ticker. -/
def prepare_stock_price_rows (rows : List CombinedBar) : List StockPriceRow :=
  rows.map fun r =>
    ⟨r.date, round6 r.px_open, round6 r.px_high, round6 r.px_low,
      round6 r.px_close, r.volume, r.ticker⟩

/-- Stock query of the report page (src/sql_operation.py select_stock_price
and src/data_report.py _queries_stock):
`SELECT * FROM stock_price WHERE ticker = ? ORDER BY date`. -/
def select_stock_by_ticker (t : String) (tbl : List StockPriceRow) :
    List StockPriceRow :=
  List.insertionSort (leBy StockPriceRow.date)
    (tbl.filter fun r => decide (r.ticker = t))

/-- Sample Cryptocurrencies snapshot rows used by concrete witnesses. -/
def coinSampleBtc : CoinRow :=
  ⟨"bitcoin", "btc", "Bitcoin", some 43000, none, some 1, none, none, none,
    none, none, "2024-01-01"⟩

/-- Another sample snapshot row (the prior refresh). -/
def coinSampleOld : CoinRow :=
  ⟨"old", "o", "Old", none, none, none, none, none, none, none, none, "d0"⟩

/-- Another sample snapshot row (the incoming refresh). -/
def coinSampleNew : CoinRow :=
  ⟨"new", "n", "New", none, none, none, none, none, none, none, none, "d1"⟩

/-- An always-throttled unit: every request is answered with HTTP 429. -/
def alwaysThrottled : Nat → HttpResp String := fun _ => ⟨429, "throttled-body"⟩

/-- Page oracle for the C5 counterexample: page 1 is permanently throttled,
every other page answers 200 with a one-element body. -/
def pageRespBad : Nat → Nat → HttpResp (List Nat) := fun page _ =>
  if page = 1 then ⟨429, []⟩ else ⟨200, [page]⟩

/-- Oracle for the C5 witness: the coin "tether" always gets a 500, every
other unit succeeds with body 7 on the first request. -/
def coinRespTether : String → Nat → HttpResp Nat := fun c _ =>
  if c = "tether" then ⟨500, 0⟩ else ⟨200, 7⟩

/-- History oracle for the C5 witness: the ticker "BAD" is rate-limited on
every attempt, "^GSPC" downloads one raw bar. -/
def histPartial : String → Nat → Option (List YfBar) := fun t _ =>
  if t = "^GSPC" then some [⟨"2024-01-02", some 2, some 3, some 1, some 2, some 1000⟩]
  else none

/-- History oracle for C7: the single batch ticker "^GSPC" downloads two raw
bars: a complete one (with a close price carrying nine decimals) and one
with a missing open price. -/
def histC7 : String → Nat → Option (List YfBar) := fun t _ =>
  if t = "^GSPC" then
    some [⟨"2024-01-02", some 2, some 3, some 1,
            some (100123456789/1000000000), some 1000⟩,
          ⟨"2024-01-03", none, some 3, some 1, some 2, some 1000⟩]
  else none

/-! ### Crypto daily-price normalizer (src/coin_daily_price.py,
process_prices_to_rows, lines 82-99) -/

/-- Proleptic-Gregorian civil date from a count of days since 1970-01-01
(what datetime.fromtimestamp(_, tz=timezone.utc) computes). -/
def civilFromDays (z0 : Int) : Int × Nat × Nat :=
  let z := z0 + 719468
  let era : Int := Int.fdiv z 146097
  let doe : Nat := (z - era * 146097).toNat
  let yoe : Nat := (doe - doe / 1460 + doe / 36524 - doe / 146096) / 365
  let doy : Nat := doe - (365 * yoe + yoe / 4 - yoe / 100)
  let mp : Nat := (5 * doy + 2) / 153
  let d : Nat := doy - (153 * mp + 2) / 5 + 1
  let m : Nat := if mp < 10 then mp + 3 else mp - 9
  let y : Int := (yoe : Int) + era * 400 + (if m ≤ 2 then 1 else 0)
  (y, m, d)

/-- Zero-padding to two digits, as strftime "%m"/"%d" formats. -/
def pad2 (n : Nat) : String := if n < 10 then "0" ++ toString n else toString n

/-- strftime("%Y-%m-%d") of the UTC day with the given day index. -/
def dateStringOfDay (z : Int) : String :=
  let c := civilFromDays z
  toString c.1 ++ "-" ++ pad2 c.2.1 ++ "-" ++ pad2 c.2.2

/-- UTC calendar-day string of a millisecond UNIX timestamp:
datetime.fromtimestamp(ts_ms / 1000, tz=timezone.utc).strftime("%Y-%m-%d"). -/
def dateStringOfMs (ts : Int) : String := dateStringOfDay (Int.fdiv ts 86400000)

/-- Python dict assignment `d[k] = v`: updates the value in place when the
key exists (keeping its position), appends a new entry otherwise. -/
def dictInsert (k : String) (v : ℚ) (d : List (String × ℚ)) : List (String × ℚ) :=
  if d.any (fun p => decide (p.1 = k)) then
    d.map (fun p => if p.1 = k then (k, v) else p)
  else d ++ [(k, v)]

/-- process_prices_to_rows (src/coin_daily_price.py lines 82-99): for every
coin of the raw dictionary, reads `api_data.get("prices") or []` (a missing
or null "prices" key yields the empty list), groups the (timestamp_ms,
price) samples by UTC calendar day keeping the last-iterated sample per day
with the price rounded to 6 decimals, and appends one record per day in
ascending date order (`sorted(by_date.items())`). -/
def process_prices_to_rows (raw : List (String × Option (List (Int × ℚ)))) :
    List CryptoPriceRow :=
  raw.foldl (fun rows pair =>
    let prices := pair.2.getD []
    let by_date := prices.foldl
      (fun d tp => dictInsert (dateStringOfMs tp.1) (round6 tp.2) d) []
    rows ++ (List.insertionSort (leBy Prod.fst) by_date).map
      (fun q => ⟨pair.1, q.1, q.2⟩)) []

/-- Sample list for the C4 witness: the spec example, samples at 02:00 UTC
(price 100.123456789) and 23:00 UTC (price 101.5) on 2025-01-01. -/
def ssSample : List (Int × ℚ) :=
  [(1735696800000, 100123456789/1000000000), (1735772400000, 203/2)]

/-! ### Cross-source daily snapshot join (src/data_report.py,
page_filters_exploration, snapshot_sql, lines 326-343) -/

/-- Output row of snapshot_sql: the commodity date, the commodity price and
the (possibly NULL) bitcoin price and index closes joined on that date. -/
structure SnapshotRow where
  date : String
  btc_price : Option ℚ
  oil_price : ℚ
  sp500_close : Option ℚ
  nifty_close : Option ℚ
deriving DecidableEq, Repr

/-- SQL LEFT JOIN on a text date column: every left row is paired with each
matching right row, or with NULL when no right row matches. -/
def leftJoinOn {β γ : Type} (l : List β) (r : List γ) (dl : β → String)
    (dr : γ → String) : List (β × Option γ) :=
  l.flatMap fun x =>
    match r.filter (fun y => decide (dr y = dl x)) with
    | [] => [(x, none)]
    | ms => ms.map fun y => (x, some y)

/-- snapshot_sql of page_filters_exploration (src/data_report.py lines
326-343): oil_price LEFT JOIN the bitcoin sub-series of Crypto_prices and
the ^GSPC and ^NSEI sub-series of stock_price on the date, filtered to the
requested date range and ordered by the commodity date. -/
def snapshot_query (oil : List OilPriceRow) (crypto : List CryptoPriceRow)
    (stock : List StockPriceRow) (startS endS : String) : List SnapshotRow :=
  let b := crypto.filter fun r => decide (r.coin_id = "bitcoin")
  let s := stock.filter fun r => decide (r.ticker = "^GSPC")
  let n := stock.filter fun r => decide (r.ticker = "^NSEI")
  let j1 := leftJoinOn oil b OilPriceRow.date CryptoPriceRow.date
  let j2 := leftJoinOn j1 s (fun p => p.1.date) StockPriceRow.date
  let j3 := leftJoinOn j2 n (fun p => p.1.1.date) StockPriceRow.date
  let fil := j3.filter fun p =>
    decide (startS ≤ p.1.1.1.date ∧ p.1.1.1.date ≤ endS)
  (List.insertionSort (leBy fun p :
      ((OilPriceRow × Option CryptoPriceRow) × Option StockPriceRow) ×
        Option StockPriceRow => p.1.1.1.date) fil).map
    fun p => ⟨p.1.1.1.date, (p.1.1.2).map CryptoPriceRow.price_usd,
      p.1.1.1.price_usd, (p.1.2).map StockPriceRow.close,
      (p.2).map StockPriceRow.close⟩

/-- Commodity table for the C8 witness. -/
def oilW : List OilPriceRow := [⟨"2024-01-01", 70⟩, ⟨"2024-01-02", 71⟩]

/-- Crypto price table for the C8 witness. -/
def cryptoW : List CryptoPriceRow := [⟨"bitcoin", "2024-01-01", 42000⟩]

/-- Equity table for the C8 witness ("2024-01-02" has no equity row). -/
def stockW : List StockPriceRow := [⟨"2024-01-01", 1, 2, 1, 2, 5, "^GSPC"⟩]

/-! ### Store lemmas -/

theorem find?_filter_of_imp {α : Type} (p q : α → Bool) (l : List α)
    (h : ∀ x, p x = true → q x = true) : (l.filter q).find? p = l.find? p := by
  induction l with
  | nil => rfl
  | cons a t ih =>
    by_cases hq : q a = true
    · rw [List.filter_cons_of_pos hq]
      by_cases hp : p a = true
      · rw [List.find?_cons_of_pos _ hp, List.find?_cons_of_pos _ hp]
      · rw [List.find?_cons_of_neg _ (by simpa using hp),
          List.find?_cons_of_neg _ (by simpa using hp)]
        exact ih
    · have hp : ¬ p a = true := fun hpa => hq (h a hpa)
      rw [List.filter_cons_of_neg (by simpa using hq), ih,
        List.find?_cons_of_neg _ (by simpa using hp)]

theorem lookup_replaceRow_self {α K : Type} [DecidableEq K] (key : α → K)
    (s : List α) (r : α) :
    lookupKey key (key r) (replaceRow key s r) = some r := by
  unfold lookupKey replaceRow
  rw [List.find?_append]
  have hnone : (s.filter fun x => decide (key x ≠ key r)).find?
      (fun x => decide (key x = key r)) = none := by
    apply List.find?_eq_none.mpr
    intro x hx
    have := List.of_mem_filter hx
    simpa using this
  rw [hnone]
  simp [List.find?]

theorem lookup_replaceRow_ne {α K : Type} [DecidableEq K] (key : α → K)
    (s : List α) (r : α) (k : K) (hk : k ≠ key r) :
    lookupKey key k (replaceRow key s r) = lookupKey key k s := by
  unfold lookupKey replaceRow
  rw [List.find?_append]
  have hfilter : (s.filter fun x => decide (key x ≠ key r)).find?
      (fun x => decide (key x = k)) = s.find? (fun x => decide (key x = k)) := by
    apply find?_filter_of_imp
    intro x hx
    simp only [decide_eq_true_eq] at hx ⊢
    rw [hx]
    exact hk
  rw [hfilter]
  have hr : ([r].find? fun x => decide (key x = k)) = none := by
    apply List.find?_eq_none.mpr
    intro x hx
    simp only [List.mem_singleton] at hx
    subst hx
    simp only [decide_eq_true_eq]
    exact fun h => hk h.symm
  rw [hr, Option.or_none]

theorem keys_nodup_replaceRow {α K : Type} [DecidableEq K] (key : α → K)
    (s : List α) (r : α) (hs : (s.map key).Nodup) :
    ((replaceRow key s r).map key).Nodup := by
  unfold replaceRow
  rw [List.map_append, List.nodup_append]
  refine ⟨hs.sublist ((List.filter_sublist s).map key), by simp, ?_⟩
  intro a ha hb
  simp only [List.map_cons, List.map_nil, List.mem_singleton] at hb
  rcases List.mem_map.mp ha with ⟨x, hx, hxa⟩
  have hne := List.of_mem_filter hx
  simp only [decide_eq_true_eq] at hne
  exact hne (hxa ▸ hb)

theorem lastKeyed_cons {α K : Type} [DecidableEq K] (key : α → K) (k : K)
    (r : α) (rs : List α) :
    lastKeyed key k (r :: rs) =
      (lastKeyed key k rs).or (if key r = k then some r else none) := by
  unfold lastKeyed
  rw [List.filter_getLast?, List.filter_getLast?, List.reverse_cons, List.find?_append]
  congr 1
  by_cases h : key r = k <;> simp [List.find?, h]

theorem lookup_replaceInto {α K : Type} [DecidableEq K] (key : α → K)
    (rows : List α) (s : List α) (k : K) :
    lookupKey key k (replaceInto key s rows) =
      (lastKeyed key k rows).or (lookupKey key k s) := by
  induction rows generalizing s with
  | nil => simp [replaceInto, lastKeyed]
  | cons r rs ih =>
    show lookupKey key k (replaceInto key (replaceRow key s r) rs) = _
    rw [ih, lastKeyed_cons]
    by_cases h : key r = k
    · subst h
      rw [if_pos rfl, lookup_replaceRow_self, Option.or_assoc]
      simp
    · rw [if_neg h, Option.or_none, lookup_replaceRow_ne key s r k (Ne.symm h)]

theorem keys_nodup_replaceInto {α K : Type} [DecidableEq K] (key : α → K)
    (rows : List α) (s : List α) (hs : (s.map key).Nodup) :
    ((replaceInto key s rows).map key).Nodup := by
  induction rows generalizing s with
  | nil => exact hs
  | cons r rs ih => exact ih (replaceRow key s r) (keys_nodup_replaceRow key s r hs)

theorem lookup_self_head {α K : Type} [DecidableEq K] (key : α → K) (x : α) (xs : List α) :
    lookupKey key (key x) (x :: xs) = some x := by
  unfold lookupKey
  rw [List.find?_cons_of_pos]
  simp

theorem lookup_eq_none_of_key_not_mem {α K : Type} [DecidableEq K] (key : α → K)
    (t : List α) (k : K) (hk : k ∉ t.map key) : lookupKey key k t = none := by
  apply List.find?_eq_none.mpr
  intro x hx
  simp only [decide_eq_true_eq]
  exact fun h => hk (List.mem_map.mpr ⟨x, hx, h⟩)

theorem lookup_erase_of_ne {α K : Type} [DecidableEq α] [DecidableEq K] (key : α → K) (t : List α)
    (x : α) (hx : x ∈ t) (k : K) (hk : ¬ k = key x) :
    lookupKey key k (t.erase x) = lookupKey key k t := by
  rcases List.exists_erase_eq hx with ⟨l₁, l₂, _, hdecomp, herase⟩
  rw [herase, hdecomp]
  unfold lookupKey
  rw [List.find?_append, List.find?_append,
    List.find?_cons_of_neg _ (by simp only [decide_eq_true_eq]; exact fun h => hk h.symm)]

theorem key_not_mem_erase {α K : Type} [DecidableEq α] [DecidableEq K] (key : α → K) (t : List α)
    (x : α) (hx : x ∈ t) (ht : (t.map key).Nodup) : key x ∉ (t.erase x).map key := by
  rcases List.exists_erase_eq hx with ⟨l₁, l₂, _, hdecomp, herase⟩
  rw [herase]
  rw [hdecomp, List.map_append, List.map_cons] at ht
  rw [List.map_append, List.mem_append]
  rintro (h1 | h2)
  · rcases List.nodup_append.mp ht with ⟨_, _, hdisj⟩
    exact hdisj h1 (List.mem_cons_self _ _)
  · rcases List.nodup_append.mp ht with ⟨_, hcons, _⟩
    exact (List.nodup_cons.mp hcons).1 h2

/-- Two tables with duplicate-free key columns and the same point-lookup
behaviour hold the same set of rows. -/
theorem perm_of_lookupKey_eq {α K : Type} [DecidableEq α] [DecidableEq K] (key : α → K) :
    ∀ (s t : List α), (s.map key).Nodup → (t.map key).Nodup →
      (∀ k, lookupKey key k s = lookupKey key k t) → s.Perm t := by
  intro s
  induction s with
  | nil =>
    intro t _ _ h
    cases t with
    | nil => exact List.Perm.refl _
    | cons a t' =>
      have ha := h (key a)
      rw [lookup_self_head] at ha
      simp [lookupKey, List.find?] at ha
  | cons x xs ih =>
    intro t hs ht h
    have hxt : lookupKey key (key x) t = some x := by
      rw [← h (key x)]
      exact lookup_self_head key x xs
    unfold lookupKey at hxt
    have hmem : x ∈ t := List.mem_of_find?_eq_some hxt
    have hperm1 := List.perm_cons_erase hmem
    have hs' : (xs.map key).Nodup := by
      rw [List.map_cons] at hs
      exact (List.nodup_cons.mp hs).2
    have hkx : key x ∉ xs.map key := by
      rw [List.map_cons] at hs
      exact (List.nodup_cons.mp hs).1
    have ht' : ((t.erase x).map key).Nodup :=
      ht.sublist ((List.erase_sublist x t).map key)
    have hlook : ∀ k, lookupKey key k xs = lookupKey key k (t.erase x) := by
      intro k
      by_cases hk : k = key x
      · subst hk
        rw [lookup_eq_none_of_key_not_mem key xs _ hkx,
          lookup_eq_none_of_key_not_mem key _ _ (key_not_mem_erase key t x hmem ht)]
      · rw [lookup_erase_of_ne key t x hmem k hk, ← h k]
        unfold lookupKey
        rw [List.find?_cons_of_neg _
          (by simp only [decide_eq_true_eq]; exact fun hh => hk hh.symm)]
    exact ((ih (t.erase x) hs' ht' hlook).cons x).trans hperm1.symm

theorem option_or_or_self {α : Type} (a b : Option α) : a.or (a.or b) = a.or b := by
  cases a <;> rfl

theorem appendStrict_of_nodup {α K : Type} [DecidableEq K] (key : α → K) :
    ∀ (rows cur : List α), (((cur ++ rows).map key).Nodup) →
      appendStrict key cur rows = some (cur ++ rows) := by
  intro rows
  induction rows with
  | nil =>
    intro cur _
    simp [appendStrict]
  | cons r rs ih =>
    intro cur h
    have hany : cur.any (fun x => decide (key x = key r)) = false := by
      rw [List.any_eq_false]
      intro x hx
      simp only [decide_eq_true_eq]
      intro heq
      rw [List.map_append] at h
      rcases List.nodup_append.mp h with ⟨_, _, hdisj⟩
      exact hdisj (List.mem_map.mpr ⟨x, hx, rfl⟩)
        (by rw [heq, List.map_cons]; exact List.mem_cons_self _ _)
    unfold appendStrict
    rw [hany]
    simp only [Bool.false_eq_true, if_false]
    have hassoc : cur ++ [r] ++ rs = cur ++ r :: rs := by
      rw [List.append_assoc, List.singleton_append]
    rw [ih (cur ++ [r]) (by rw [hassoc]; exact h), hassoc]

theorem runSteps_push_success (df : List CoinRow) (db : DBTable CoinRow)
    (hdf : (df.map coinKey).Nodup) (_hclean : db.pending = db.committed) :
    runSteps coinKey db (pushSteps df) =
      .ok { committed := df, pending := df } := by
  have happ : appendStrict coinKey [] df = some df :=
    appendStrict_of_nodup coinKey df [] (by simpa using hdf)
  simp [pushSteps, runSteps, applyStep, happ]

theorem runSteps_push_prefix_keeps_committed (df : List CoinRow)
    (db : DBTable CoinRow) (hclean : db.pending = db.committed)
    (p : List (SqlStep CoinRow))
    (hp : p = [] ∨ p = [SqlStep.commitStep] ∨
      p = [SqlStep.commitStep, SqlStep.deleteAll] ∨
      p = [SqlStep.commitStep, SqlStep.deleteAll, SqlStep.appendRows df]) :
    (dbAfter (runSteps coinKey db p)).committed = db.committed := by
  rcases hp with hp | hp | hp | hp <;> subst hp
  · rfl
  · simp [runSteps, applyStep, dbAfter, hclean]
  · simp [runSteps, applyStep, dbAfter, hclean]
  · cases happ : appendStrict coinKey [] df with
    | some rows => simp [runSteps, applyStep, dbAfter, happ, hclean]
    | none => simp [runSteps, applyStep, dbAfter, happ, hclean]

/-! ### Claim theorems for the store (C1, C2, C6, C9) -/

/-- C1: for every table and every batch of canonical rows, after the insert
call the store contains exactly one row per distinct key value (key column
stays duplicate-free), holding the values from the most recent write that
touched that key (`lastKeyed` of the batch, else the prior value); rows whose
keys are not in the incoming batch are left untouched for the historical
tables Crypto_prices, oil_price and stock_price, and removed for the snapshot
table Cryptocurrencies, whose refresh ends with exactly the batch rows. -/
theorem C1_upsert_store_semantics
    (crows ctbl : List CryptoPriceRow) (orows otbl : List OilPriceRow)
    (srows stbl : List StockPriceRow) (df : List CoinRow) (db : DBTable CoinRow)
    (hc : (ctbl.map cryptoKey).Nodup) (ho : (otbl.map oilKey).Nodup)
    (hs : (stbl.map stockKey).Nodup) (hdf : (df.map coinKey).Nodup)
    (hclean : db.pending = db.committed) :
    (((insert_crypto_prices crows ctbl).1.map cryptoKey).Nodup ∧
      ∀ k, lookupKey cryptoKey k (insert_crypto_prices crows ctbl).1 =
        (lastKeyed cryptoKey k crows).or (lookupKey cryptoKey k ctbl)) ∧
    (((insert_oil_prices orows otbl).1.map oilKey).Nodup ∧
      ∀ k, lookupKey oilKey k (insert_oil_prices orows otbl).1 =
        (lastKeyed oilKey k orows).or (lookupKey oilKey k otbl)) ∧
    (((insert_stock_prices srows stbl).1.map stockKey).Nodup ∧
      ∀ k, lookupKey stockKey k (insert_stock_prices srows stbl).1 =
        (lastKeyed stockKey k srows).or (lookupKey stockKey k stbl)) ∧
    push_dataframe_to_table df db =
      .ok ({ committed := df, pending := df }, df.length) := by
  refine ⟨⟨keys_nodup_replaceInto cryptoKey crows ctbl hc,
      fun k => lookup_replaceInto cryptoKey crows ctbl k⟩,
    ⟨keys_nodup_replaceInto oilKey orows otbl ho,
      fun k => lookup_replaceInto oilKey orows otbl k⟩,
    ⟨keys_nodup_replaceInto stockKey srows stbl hs,
      fun k => lookup_replaceInto stockKey srows stbl k⟩, ?_⟩
  unfold push_dataframe_to_table
  rw [runSteps_push_success df db hdf hclean]

/-- Witness for C1 at concrete inputs, including the spec example of an
upsert overwrite of the key (bitcoin, 2024-01-01). -/
theorem C1_upsert_store_semantics_witness :
    (([(⟨"2023-12-31", 99⟩ : OilPriceRow)].map oilKey).Nodup ∧
      lookupKey cryptoKey ("bitcoin", "2024-01-01")
        (insert_crypto_prices
          [⟨"bitcoin", "2024-01-01", 42000⟩, ⟨"bitcoin", "2024-01-01", 43000⟩]
          []).1 = some ⟨"bitcoin", "2024-01-01", 43000⟩) ∧
    (((insert_crypto_prices
        [⟨"bitcoin", "2024-01-01", 42000⟩, ⟨"bitcoin", "2024-01-01", 43000⟩]
        []).1.map cryptoKey).Nodup ∧
      ∀ k, lookupKey oilKey k (insert_oil_prices [⟨"2024-01-01", 70⟩]
          [⟨"2023-12-31", 99⟩]).1 =
        (lastKeyed oilKey k [⟨"2024-01-01", 70⟩]).or
          (lookupKey oilKey k [⟨"2023-12-31", 99⟩])) ∧
    push_dataframe_to_table [coinSampleBtc] ⟨[], []⟩ =
      .ok (⟨[coinSampleBtc], [coinSampleBtc]⟩, 1) := by
  have h := C1_upsert_store_semantics
    [⟨"bitcoin", "2024-01-01", 42000⟩, ⟨"bitcoin", "2024-01-01", 43000⟩] []
    [⟨"2024-01-01", 70⟩] [⟨"2023-12-31", 99⟩] [] []
    [coinSampleBtc] ⟨[], []⟩
    (by decide) (by decide) (by decide) (by decide) (by decide)
  exact ⟨⟨by decide, by decide⟩, ⟨h.1.1, h.2.1.2⟩, h.2.2.2⟩

/-- C2: ingesting the same normalized batch twice leaves the store in the
same state as ingesting it once: for the historical tables the resulting row
lists are permutations of each other (same row set and values), and for the
snapshot table re-pushing the same DataFrame reproduces the same state. -/
theorem C2_reingestion_idempotent
    (crows ctbl : List CryptoPriceRow) (orows otbl : List OilPriceRow)
    (srows stbl : List StockPriceRow) (df : List CoinRow)
    (hc : (ctbl.map cryptoKey).Nodup) (ho : (otbl.map oilKey).Nodup)
    (hs : (stbl.map stockKey).Nodup) (hdf : (df.map coinKey).Nodup) :
    (insert_crypto_prices crows (insert_crypto_prices crows ctbl).1).1.Perm
      (insert_crypto_prices crows ctbl).1 ∧
    (insert_oil_prices orows (insert_oil_prices orows otbl).1).1.Perm
      (insert_oil_prices orows otbl).1 ∧
    (insert_stock_prices srows (insert_stock_prices srows stbl).1).1.Perm
      (insert_stock_prices srows stbl).1 ∧
    push_dataframe_to_table df { committed := df, pending := df } =
      .ok ({ committed := df, pending := df }, df.length) := by
  refine ⟨?_, ?_, ?_, ?_⟩
  · apply perm_of_lookupKey_eq cryptoKey
    · exact keys_nodup_replaceInto cryptoKey crows _
        (keys_nodup_replaceInto cryptoKey crows ctbl hc)
    · exact keys_nodup_replaceInto cryptoKey crows ctbl hc
    · intro k
      show lookupKey cryptoKey k (replaceInto cryptoKey
          (replaceInto cryptoKey ctbl crows) crows) =
        lookupKey cryptoKey k (replaceInto cryptoKey ctbl crows)
      rw [lookup_replaceInto, lookup_replaceInto]
      exact option_or_or_self _ _
  · apply perm_of_lookupKey_eq oilKey
    · exact keys_nodup_replaceInto oilKey orows _
        (keys_nodup_replaceInto oilKey orows otbl ho)
    · exact keys_nodup_replaceInto oilKey orows otbl ho
    · intro k
      show lookupKey oilKey k (replaceInto oilKey
          (replaceInto oilKey otbl orows) orows) =
        lookupKey oilKey k (replaceInto oilKey otbl orows)
      rw [lookup_replaceInto, lookup_replaceInto]
      exact option_or_or_self _ _
  · apply perm_of_lookupKey_eq stockKey
    · exact keys_nodup_replaceInto stockKey srows _
        (keys_nodup_replaceInto stockKey srows stbl hs)
    · exact keys_nodup_replaceInto stockKey srows stbl hs
    · intro k
      show lookupKey stockKey k (replaceInto stockKey
          (replaceInto stockKey stbl srows) srows) =
        lookupKey stockKey k (replaceInto stockKey stbl srows)
      rw [lookup_replaceInto, lookup_replaceInto]
      exact option_or_or_self _ _
  · unfold push_dataframe_to_table
    rw [runSteps_push_success df _ hdf rfl]

/-- Witness for C2 at concrete inputs. -/
theorem C2_reingestion_idempotent_witness :
    ((([(⟨"2023-12-31", 99⟩ : OilPriceRow)]).map oilKey).Nodup ∧
      ([coinSampleBtc].map coinKey).Nodup) ∧
    (insert_crypto_prices [⟨"bitcoin", "2024-01-01", 42000⟩]
      (insert_crypto_prices [⟨"bitcoin", "2024-01-01", 42000⟩] []).1).1.Perm
      (insert_crypto_prices [⟨"bitcoin", "2024-01-01", 42000⟩] []).1 ∧
    push_dataframe_to_table [coinSampleBtc] ⟨[coinSampleBtc], [coinSampleBtc]⟩ =
      .ok (⟨[coinSampleBtc], [coinSampleBtc]⟩, 1) := by
  have h := C2_reingestion_idempotent [⟨"bitcoin", "2024-01-01", 42000⟩] []
    [⟨"2024-01-01", 70⟩] [⟨"2023-12-31", 99⟩] [] [] [coinSampleBtc]
    (by decide) (by decide) (by decide) (by decide)
  exact ⟨⟨by decide, by decide⟩, h.1, h.2.2.2⟩

/-- C6: the Coin snapshot refresh is delete-all then insert-all inside one
transaction: for every interruption point before the final commit (every
proper prefix of the statement sequence) readers still see the prior
complete snapshot, and the completed run commits exactly the new rows, so
no mix of old and new rows is ever visible. -/
theorem C6_snapshot_refresh_atomic (df : List CoinRow) (db : DBTable CoinRow)
    (hclean : db.pending = db.committed) (p : List (SqlStep CoinRow))
    (hp : p = [] ∨ p = [SqlStep.commitStep] ∨
      p = [SqlStep.commitStep, SqlStep.deleteAll] ∨
      p = [SqlStep.commitStep, SqlStep.deleteAll, SqlStep.appendRows df]) :
    (dbAfter (runSteps coinKey db p)).committed = db.committed ∧
    ((df.map coinKey).Nodup →
      runSteps coinKey db (pushSteps df) = .ok { committed := df, pending := df }) := by
  exact ⟨runSteps_push_prefix_keeps_committed df db hclean p hp,
    fun hdf => runSteps_push_success df db hdf hclean⟩

/-- Witness for C6: interruption right after the DELETE statement leaves the
old one-row snapshot visible; the full run replaces it by the new row. -/
theorem C6_snapshot_refresh_atomic_witness :
    ((⟨[coinSampleOld], [coinSampleOld]⟩ : DBTable CoinRow).pending =
      (⟨[coinSampleOld], [coinSampleOld]⟩ : DBTable CoinRow).committed) ∧
    (dbAfter (runSteps coinKey
      (⟨[coinSampleOld], [coinSampleOld]⟩ : DBTable CoinRow)
      [SqlStep.commitStep, SqlStep.deleteAll])).committed = [coinSampleOld] := by
  have h := C6_snapshot_refresh_atomic [coinSampleNew]
    ⟨[coinSampleOld], [coinSampleOld]⟩
    (by decide) [SqlStep.commitStep, SqlStep.deleteAll]
    (Or.inr (Or.inr (Or.inl rfl)))
  exact ⟨by decide, h.1⟩

theorem or_eq_left_of_key_mem {α K : Type} [DecidableEq K] (key : α → K) (k : K)
    (rows tbl : List α) (hk : k ∈ rows.map key) :
    (lastKeyed key k rows).or (lookupKey key k tbl) = lastKeyed key k rows := by
  unfold lastKeyed
  rw [List.filter_getLast?]
  cases hfind : rows.reverse.find? (fun r2 => decide (key r2 = k)) with
  | some y => rfl
  | none =>
    rcases List.mem_map.mp hk with ⟨r, hr, hkey⟩
    have hnone := List.find?_eq_none.mp hfind r (List.mem_reverse.mpr hr)
    simp [hkey] at hnone

/-- C9: for every historical-table insert whose input list repeats a
composite key, the rows are applied sequentially in list order, so the stored
value for that key is the last such row of the list, and the function returns
the length of the input list (not the number of distinct keys stored). -/
theorem C9_duplicate_keys_last_wins_and_count
    (crows ctbl : List CryptoPriceRow) (orows otbl : List OilPriceRow)
    (srows stbl : List StockPriceRow)
    (ck : String × String) (ok : String) (sk : String × String)
    (hck : ck ∈ crows.map cryptoKey) (hok : ok ∈ orows.map oilKey)
    (hsk : sk ∈ srows.map stockKey) :
    ((insert_crypto_prices crows ctbl).2 = crows.length ∧
      lookupKey cryptoKey ck (insert_crypto_prices crows ctbl).1 =
        lastKeyed cryptoKey ck crows) ∧
    ((insert_oil_prices orows otbl).2 = orows.length ∧
      lookupKey oilKey ok (insert_oil_prices orows otbl).1 =
        lastKeyed oilKey ok orows) ∧
    ((insert_stock_prices srows stbl).2 = srows.length ∧
      lookupKey stockKey sk (insert_stock_prices srows stbl).1 =
        lastKeyed stockKey sk srows) := by
  refine ⟨⟨rfl, ?_⟩, ⟨rfl, ?_⟩, ⟨rfl, ?_⟩⟩
  · rw [show (insert_crypto_prices crows ctbl).1 =
      replaceInto cryptoKey ctbl crows from rfl, lookup_replaceInto]
    exact or_eq_left_of_key_mem cryptoKey ck crows ctbl hck
  · rw [show (insert_oil_prices orows otbl).1 =
      replaceInto oilKey otbl orows from rfl, lookup_replaceInto]
    exact or_eq_left_of_key_mem oilKey ok orows otbl hok
  · rw [show (insert_stock_prices srows stbl).1 =
      replaceInto stockKey stbl srows from rfl, lookup_replaceInto]
    exact or_eq_left_of_key_mem stockKey sk srows stbl hsk

/-- Witness for C9: a batch with the key (bitcoin, 2024-01-01) twice stores
the second value 43000 and still reports count 2. -/
theorem C9_duplicate_keys_last_wins_and_count_witness :
    (("bitcoin", "2024-01-01") ∈
      ([⟨"bitcoin", "2024-01-01", 42000⟩,
        ⟨"bitcoin", "2024-01-01", 43000⟩] : List CryptoPriceRow).map cryptoKey) ∧
    (insert_crypto_prices
      [⟨"bitcoin", "2024-01-01", 42000⟩, ⟨"bitcoin", "2024-01-01", 43000⟩]
      []).2 = 2 ∧
    lookupKey cryptoKey ("bitcoin", "2024-01-01")
      (insert_crypto_prices
        [⟨"bitcoin", "2024-01-01", 42000⟩, ⟨"bitcoin", "2024-01-01", 43000⟩]
        []).1 =
      lastKeyed cryptoKey ("bitcoin", "2024-01-01")
        [⟨"bitcoin", "2024-01-01", 42000⟩, ⟨"bitcoin", "2024-01-01", 43000⟩] ∧
    ((insert_crypto_prices
      [⟨"bitcoin", "2024-01-01", 42000⟩, ⟨"bitcoin", "2024-01-01", 43000⟩]
      []).1.map cryptoKey).length = 1 := by
  have h := C9_duplicate_keys_last_wins_and_count
    [⟨"bitcoin", "2024-01-01", 42000⟩, ⟨"bitcoin", "2024-01-01", 43000⟩] []
    [⟨"2024-01-01", 70⟩] [] [⟨"2024-01-02", 1, 2, 0, 1, 5, "GSPC"⟩] []
    ("bitcoin", "2024-01-01") "2024-01-01" ("GSPC", "2024-01-02")
    (by decide) (by decide) (by decide)
  exact ⟨by decide, h.1.1, h.1.2, by decide⟩

/-! ### Claim theorems for the fetchers (C3, C5) and the equity key (C7) -/

theorem fetch_all_daily_prices_eq_filterMap {α : Type}
    (resp : String → Nat → HttpResp α) :
    fetch_all_daily_prices resp =
      TOP_COIN_IDS.filterMap
        (fun c => ((fetch_market_chart (resp c)).1).map (fun d => (c, d))) := by
  unfold fetch_all_daily_prices
  have hgen : ∀ (l : List String) (acc : List (String × α)),
      l.foldl (fun acc coin =>
        match (fetch_market_chart (resp coin)).1 with
        | some d => acc ++ [(coin, d)]
        | none => acc) acc =
      acc ++ l.filterMap
        (fun c => ((fetch_market_chart (resp c)).1).map (fun d => (c, d))) := by
    intro l
    induction l with
    | nil => intro acc; simp
    | cons c cs ih =>
      intro acc
      rw [List.foldl_cons, List.filterMap_cons]
      cases hc : (fetch_market_chart (resp c)).1 with
      | some d => rw [ih]; simp
      | none => rw [ih]; simp
  rw [hgen, List.nil_append]

theorem tickerFrames_skip (hist : String → Nat → Option (List YfBar))
    (t : String) (l1 l2 : List String) (ht : tickerFetch hist t = []) :
    tickerFrames hist (l1 ++ t :: l2) = tickerFrames hist (l1 ++ l2) := by
  unfold tickerFrames
  rw [List.foldl_append, List.foldl_cons, List.foldl_append]
  congr 1
  simp [ht]

/-- C3: evaluation of the fetchers at a unit whose every request receives a
throttling (429) response.  fetch_market_chart sends exactly ONE request
(not MAX_RETRIES = 3), sleeps RETRY_DELAY once, and returns the throttled
response body as a successful result: the mis-indented
`return response.json()` executes right after the sleep.  fetch_page does
retry, sending exactly MAX_RETRIES requests with RETRY_DELAY sleeps between
them, but then raises the final 429 out of the function (aborting the run)
instead of reporting a skip. -/
theorem C3_throttled_unit_evaluation :
    fetch_market_chart alwaysThrottled =
      (some "throttled-body", ⟨1, [RETRY_DELAY]⟩) ∧
    fetch_page (fun _ => (⟨429, ([] : List Nat)⟩ : HttpResp (List Nat))) =
      Except.error ⟨MAX_RETRIES, [RETRY_DELAY, RETRY_DELAY]⟩ := by
  constructor <;> rfl

/-- C5 counterexample: in the page batch, the failure of one unit DOES abort
the batch.  With page 1 permanently throttled, fetch_page raises the final
429 and fetch_all_pages propagates it: the run ends with an error and the
output contains nothing from pages 2..5, although each of those pages
fetches successfully on its own. -/
theorem C5_page_failure_aborts_batch :
    fetch_all_pages pageRespBad =
      Except.error ⟨MAX_RETRIES, [RETRY_DELAY, RETRY_DELAY]⟩ ∧
    fetch_page (pageRespBad 2) = Except.ok ([2], ⟨1, []⟩) ∧
    fetch_page (pageRespBad 3) = Except.ok ([3], ⟨1, []⟩) := by
  refine ⟨rfl, rfl, rfl⟩

/-- C5 (amended): failure isolation holds for the coin batch and the ticker
batch, but not for the page batch (see the counterexample).  A coin whose
fetch_market_chart call returns None is absent from the output of
fetch_all_daily_prices while every successfully fetched coin is present
with its data; a ticker whose retry loop ends with an empty frame
contributes nothing to download_all_tickers, which behaves as if the ticker
were not in the batch. -/
theorem C5_failure_isolation_coins_tickers {α : Type}
    (resp : String → Nat → HttpResp α) (coin : String)
    (hfail : (fetch_market_chart (resp coin)).1 = none)
    (hist : String → Nat → Option (List YfBar)) (t : String)
    (l1 l2 : List String) (ht : tickerFetch hist t = []) :
    coin ∉ (fetch_all_daily_prices resp).map Prod.fst ∧
    (∀ c d, c ∈ TOP_COIN_IDS → (fetch_market_chart (resp c)).1 = some d →
      (c, d) ∈ fetch_all_daily_prices resp) ∧
    download_all_tickers hist (l1 ++ t :: l2) = download_all_tickers hist (l1 ++ l2) := by
  refine ⟨?_, ?_, ?_⟩
  · rw [fetch_all_daily_prices_eq_filterMap]
    intro hmem
    rcases List.mem_map.mp hmem with ⟨p, hp, hfst⟩
    rcases List.mem_filterMap.mp hp with ⟨c, _, hc⟩
    cases hcf : (fetch_market_chart (resp c)).1 with
    | none => rw [hcf] at hc; exact Option.noConfusion hc
    | some d =>
      rw [hcf] at hc
      have hpc : p = (c, d) := by
        simpa using hc.symm
      rw [hpc] at hfst
      simp at hfst
      rw [hfst] at hcf
      rw [hcf] at hfail
      exact Option.noConfusion hfail
  · intro c d hc hd
    rw [fetch_all_daily_prices_eq_filterMap]
    exact List.mem_filterMap.mpr ⟨c, hc, by rw [hd]; rfl⟩
  · unfold download_all_tickers
    rw [tickerFrames_skip hist t l1 l2 ht]

/-- Witness for C5 (amended) at concrete oracles. -/
theorem C5_failure_isolation_coins_tickers_witness :
    ((fetch_market_chart (coinRespTether "tether")).1 = none ∧
      tickerFetch histPartial "BAD" = []) ∧
    ("tether" ∉ (fetch_all_daily_prices coinRespTether).map Prod.fst ∧
      (∀ c d, c ∈ TOP_COIN_IDS →
        (fetch_market_chart (coinRespTether c)).1 = some d →
        (c, d) ∈ fetch_all_daily_prices coinRespTether) ∧
      download_all_tickers histPartial (["^GSPC"] ++ "BAD" :: []) =
        download_all_tickers histPartial (["^GSPC"] ++ [])) := by
  have h := C5_failure_isolation_coins_tickers coinRespTether "tether"
    (by rfl) histPartial "BAD" ["^GSPC"] [] (by rfl)
  exact ⟨⟨rfl, rfl⟩, h⟩

/-- C7: evaluation of the equity pipeline for the canonical ticker "^GSPC".
The normalizer drops the bar with the missing OHLCV field, casts the volume
to an integer, rounds prices to 6 decimals (100.123456789 becomes
100.123457), and emits (date, open, high, low, close, volume, ticker) - but
the ticker stored as the join key is the caret-STRIPPED "GSPC", not the
canonical "^GSPC".  The report layer (src/data_report.py _queries_stock and
page_filters_exploration) filters `WHERE ticker = '^GSPC'`, which matches
nothing, while the stripped key "GSPC" matches the stored row. -/
theorem C7_equity_normalizer_ticker_key :
    (insert_stock_prices (prepare_stock_price_rows
        (download_all_tickers histC7 ["^GSPC"])) []).1 =
      [⟨"2024-01-02", 2, 3, 1, 100123457/1000000, 1000, "GSPC"⟩] ∧
    stripCaret "^GSPC" = "GSPC" ∧
    select_stock_by_ticker "^GSPC"
      [⟨"2024-01-02", 2, 3, 1, 100123457/1000000, 1000, "GSPC"⟩] = [] ∧
    select_stock_by_ticker "GSPC"
      [⟨"2024-01-02", 2, 3, 1, 100123457/1000000, 1000, "GSPC"⟩] =
      [⟨"2024-01-02", 2, 3, 1, 100123457/1000000, 1000, "GSPC"⟩] := by
  have h1 : round6 1 = 1 := by norm_num [round6, roundHalfEven]
  have h2 : round6 2 = 2 := by norm_num [round6, roundHalfEven]
  have h3 : round6 3 = 3 := by norm_num [round6, roundHalfEven]
  have hr : round6 (100123456789/1000000000) = 100123457/1000000 := by
    norm_num [round6, roundHalfEven]
  refine ⟨?_, by rfl, ?_, ?_⟩
  · simp [insert_stock_prices, prepare_stock_price_rows, download_all_tickers,
      tickerFrames, tickerFetch, tickerFetchGo, histC7, download_ticker_history,
      dropnaCast, truncRat, stripCaret, List.insertionSort, replaceInto,
      replaceRow, h1, h2, h3, hr]
  · simp [select_stock_by_ticker, List.insertionSort]
  · simp [select_stock_by_ticker, List.insertionSort]

theorem getLastD_of_cons {β : Type} (a : β) (l : List β) (v : β) :
    ((a :: l).getLast?).getD v = (l.getLast?).getD a := by
  cases l with
  | nil => rfl
  | cons b t =>
    rw [List.getLast?_cons_cons]
    cases h : (b :: t).getLast? with
    | some x => rfl
    | none => simp at h

theorem dict_fold_const (D : String) :
    ∀ (ss : List (Int × ℚ)) (v : ℚ), (∀ p ∈ ss, dateStringOfMs p.1 = D) →
      ss.foldl (fun d tp => dictInsert (dateStringOfMs tp.1) (round6 tp.2) d)
        [(D, v)] =
      [(D, ((ss.map (fun tp => round6 tp.2)).getLast?).getD v)] := by
  intro ss
  induction ss with
  | nil => intro v _; rfl
  | cons tp ts ih =>
    intro v h
    have hD : dateStringOfMs tp.1 = D := h tp (List.mem_cons_self _ _)
    rw [List.foldl_cons]
    have hins : dictInsert (dateStringOfMs tp.1) (round6 tp.2) [(D, v)] =
        [(D, round6 tp.2)] := by
      rw [hD]
      simp [dictInsert]
    rw [hins, ih (round6 tp.2) (fun p hp => h p (List.mem_cons_of_mem _ hp)),
      List.map_cons, getLastD_of_cons]

/-- C10: the crypto normalizer is total on missing or null price data: a coin
whose payload has no usable "prices" list contributes zero rows, and the
output for the remaining coins of the same payload is unchanged. -/
theorem C10_missing_prices_zero_rows
    (l1 l2 : List (String × Option (List (Int × ℚ)))) (c : String) :
    process_prices_to_rows (l1 ++ [(c, none)] ++ l2) =
      process_prices_to_rows (l1 ++ l2) ∧
    process_prices_to_rows [(c, none)] = [] := by
  constructor
  · unfold process_prices_to_rows
    have hsplit : l1 ++ [(c, none)] ++ l2 = l1 ++ ((c, none) :: l2) := by simp
    rw [hsplit, List.foldl_append, List.foldl_append, List.foldl_cons]
    simp
  · simp [process_prices_to_rows]

/-- C4: for every coin and every list of same-day sub-daily samples with
strictly increasing timestamps, the crypto normalizer emits exactly one row
for that UTC calendar day whose price is the chronologically last sample
rounded to 6 decimals, and rows emitted for a coin are sorted by date. -/
theorem C4_collapse_last_sample (c : String) (ss : List (Int × ℚ)) (D : String)
    (hne : ss ≠ [])
    (hday : ∀ p ∈ ss, dateStringOfMs p.1 = D)
    (hchron : ss.Pairwise (fun a b => a.1 < b.1)) :
    process_prices_to_rows [(c, some ss)] =
      [⟨c, D, round6 (ss.getLast hne).2⟩] ∧
    ∀ api : Option (List (Int × ℚ)),
      ((process_prices_to_rows [(c, api)]).map CryptoPriceRow.date).Sorted (· ≤ ·) := by
  constructor
  · unfold process_prices_to_rows
    rw [List.foldl_cons, List.foldl_nil]
    cases ss with
    | nil => exact absurd rfl hne
    | cons s0 rest =>
      show [] ++ (List.insertionSort (leBy Prod.fst)
        (((s0 :: rest).foldl
          (fun (d : List (String × ℚ)) (tp : Int × ℚ) =>
            dictInsert (dateStringOfMs tp.1) (round6 tp.2) d) []))).map
        (fun (q : String × ℚ) => (⟨c, q.1, q.2⟩ : CryptoPriceRow)) = _
      rw [List.foldl_cons]
      have h0 : dictInsert (dateStringOfMs s0.1) (round6 s0.2) [] =
          [(D, round6 s0.2)] := by
        rw [hday s0 (List.mem_cons_self _ _)]
        rfl
      rw [h0, dict_fold_const D rest (round6 s0.2)
        (fun p hp => hday p (List.mem_cons_of_mem _ hp))]
      have hlast : (((rest.map (fun tp => round6 tp.2)).getLast?).getD (round6 s0.2)) =
          round6 ((s0 :: rest).getLast hne).2 := by
        rw [← getLastD_of_cons (round6 s0.2) (rest.map (fun tp => round6 tp.2))
          (round6 s0.2)]
        rw [show (round6 s0.2 :: rest.map (fun tp => round6 tp.2)) =
          (s0 :: rest).map (fun tp => round6 tp.2) from rfl]
        rw [List.getLast?_map, List.getLast?_eq_getLast _ hne]
        rfl
      rw [hlast]
      simp [List.insertionSort]
  · intro api
    unfold process_prices_to_rows
    rw [List.foldl_cons, List.foldl_nil]
    show ((([] ++ (List.insertionSort (leBy Prod.fst)
      ((api.getD []).foldl
        (fun (d : List (String × ℚ)) (tp : Int × ℚ) =>
          dictInsert (dateStringOfMs tp.1) (round6 tp.2) d) [])).map
      (fun (q : String × ℚ) => (⟨c, q.1, q.2⟩ : CryptoPriceRow)))).map
      CryptoPriceRow.date).Sorted (· ≤ ·)
    rw [List.nil_append, List.map_map]
    have hfun : (CryptoPriceRow.date ∘ fun q : String × ℚ =>
        (⟨c, q.1, q.2⟩ : CryptoPriceRow)) = Prod.fst := rfl
    rw [hfun]
    have hs := List.sorted_insertionSort (leBy (Prod.fst : String × ℚ → String))
      ((api.getD []).foldl
        (fun d tp => dictInsert (dateStringOfMs tp.1) (round6 tp.2) d) [])
    exact List.Pairwise.map _ (fun a b hab => hab) hs

/-- Witness for C4 at the spec example. -/
theorem C4_collapse_last_sample_witness :
    (ssSample ≠ [] ∧
      (∀ p ∈ ssSample, dateStringOfMs p.1 = "2025-01-01") ∧
      ssSample.Pairwise (fun a b => a.1 < b.1)) ∧
    process_prices_to_rows [("bitcoin", some ssSample)] =
      [⟨"bitcoin", "2025-01-01",
        round6 (ssSample.getLast (by decide)).2⟩] := by
  have h := C4_collapse_last_sample "bitcoin" ssSample "2025-01-01"
    (by decide) (by decide) (by decide)
  exact ⟨⟨by decide, by decide, by decide⟩, h.1⟩

theorem length_filter_le_one {γ : Type} (dr : γ → String) (r : List γ)
    (hr : (r.map dr).Nodup) (d : String) :
    (r.filter fun y => decide (dr y = d)).length ≤ 1 := by
  induction r with
  | nil => simp
  | cons a t ih =>
    rw [List.map_cons, List.nodup_cons] at hr
    by_cases ha : dr a = d
    · rw [List.filter_cons_of_pos (by simpa using ha)]
      have hnil : t.filter (fun y => decide (dr y = d)) = [] := by
        rw [List.filter_eq_nil_iff]
        intro x hx
        simp only [decide_eq_true_eq]
        intro hxd
        exact hr.1 (List.mem_map.mpr ⟨x, hx, by rw [hxd, ha]⟩)
      rw [hnil]
      simp
    · rw [List.filter_cons_of_neg (by simpa using ha)]
      exact ih hr.2

theorem leftJoinOn_of_nodup {β γ : Type} (l : List β) (r : List γ)
    (dl : β → String) (dr : γ → String) (hr : (r.map dr).Nodup) :
    leftJoinOn l r dl dr =
      l.map fun x => (x, r.find? (fun y => decide (dr y = dl x))) := by
  unfold leftJoinOn
  induction l with
  | nil => rfl
  | cons x xs ih =>
    rw [List.flatMap_cons, List.map_cons, ih]
    have hfind : r.find? (fun y => decide (dr y = dl x)) =
        (r.filter (fun y => decide (dr y = dl x))).head? :=
      (List.filter_head? _ r).symm
    cases hflt : r.filter (fun y => decide (dr y = dl x)) with
    | nil => rw [hfind, hflt]; rfl
    | cons m ms =>
      have hlen := length_filter_le_one dr r hr (dl x)
      rw [hflt] at hlen
      simp at hlen
      subst hlen
      rw [hfind, hflt]
      rfl

theorem nodup_dates_filter {γ : Type} (tick date : γ → String) (l : List γ)
    (h : (l.map fun r => (tick r, date r)).Nodup) (c : String) :
    ((l.filter fun r => decide (tick r = c)).map date).Nodup := by
  induction l with
  | nil => simp
  | cons a t ih =>
    rw [List.map_cons, List.nodup_cons] at h
    by_cases hc : tick a = c
    · rw [List.filter_cons_of_pos (by simpa using hc), List.map_cons,
        List.nodup_cons]
      refine ⟨?_, ih h.2⟩
      intro hmem
      rcases List.mem_map.mp hmem with ⟨x, hx, hdx⟩
      have hx1 := List.of_mem_filter hx
      simp only [decide_eq_true_eq] at hx1
      exact h.1 (List.mem_map.mpr ⟨x, List.mem_of_mem_filter hx,
        by rw [hx1, hc, hdx]⟩)
    · rw [List.filter_cons_of_neg (by simpa using hc)]
      exact ih h.2

/-- C8: the daily-snapshot query left-joins the commodity series with the
bitcoin sub-series and the two equity sub-series on the date: with
duplicate-free primary keys it returns exactly one row per in-range
commodity date in date order - every commodity date is included, the
equity-side columns are the (possibly absent, hence NULL) point lookups for
that date, and no commodity row is duplicated because each ticker is joined
through its own filtered sub-query. -/
theorem sort_map_by_date {β : Type} (F : OilPriceRow → β) (g : β → String)
    (hg : ∀ o, g (F o) = o.date) (l : List OilPriceRow) :
    List.insertionSort (leBy g) (l.map F) =
      (List.insertionSort (leBy OilPriceRow.date) l).map F := by
  rw [List.map_insertionSort (leBy OilPriceRow.date) (leBy g) F l
    (fun a _ b _ => by unfold leBy; rw [hg, hg])]

theorem C8_commodity_equity_left_join
    (oil : List OilPriceRow) (crypto : List CryptoPriceRow)
    (stock : List StockPriceRow) (startS endS : String)
    (_ho : (oil.map oilKey).Nodup) (hc : (crypto.map cryptoKey).Nodup)
    (hs : (stock.map stockKey).Nodup) :
    snapshot_query oil crypto stock startS endS =
      (List.insertionSort (leBy OilPriceRow.date)
        (oil.filter fun o => decide (startS ≤ o.date ∧ o.date ≤ endS))).map
        (fun o => ⟨o.date,
          ((crypto.filter fun r => decide (r.coin_id = "bitcoin")).find?
            (fun r => decide (r.date = o.date))).map CryptoPriceRow.price_usd,
          o.price_usd,
          ((stock.filter fun r => decide (r.ticker = "^GSPC")).find?
            (fun r => decide (r.date = o.date))).map StockPriceRow.close,
          ((stock.filter fun r => decide (r.ticker = "^NSEI")).find?
            (fun r => decide (r.date = o.date))).map StockPriceRow.close⟩) ∧
    (snapshot_query oil crypto stock startS endS).length =
      (oil.filter fun o => decide (startS ≤ o.date ∧ o.date ≤ endS)).length ∧
    ∀ o ∈ oil, startS ≤ o.date ∧ o.date ≤ endS →
      o.date ∈ (snapshot_query oil crypto stock startS endS).map
        SnapshotRow.date := by
  have hbd : ((crypto.filter fun r => decide (r.coin_id = "bitcoin")).map
      CryptoPriceRow.date).Nodup :=
    nodup_dates_filter CryptoPriceRow.coin_id CryptoPriceRow.date crypto hc
      "bitcoin"
  have hsd : ((stock.filter fun r => decide (r.ticker = "^GSPC")).map
      StockPriceRow.date).Nodup :=
    nodup_dates_filter StockPriceRow.ticker StockPriceRow.date stock hs "^GSPC"
  have hnd : ((stock.filter fun r => decide (r.ticker = "^NSEI")).map
      StockPriceRow.date).Nodup :=
    nodup_dates_filter StockPriceRow.ticker StockPriceRow.date stock hs "^NSEI"
  have hmain : snapshot_query oil crypto stock startS endS =
      (List.insertionSort (leBy OilPriceRow.date)
        (oil.filter fun o => decide (startS ≤ o.date ∧ o.date ≤ endS))).map
        (fun o => ⟨o.date,
          ((crypto.filter fun r => decide (r.coin_id = "bitcoin")).find?
            (fun r => decide (r.date = o.date))).map CryptoPriceRow.price_usd,
          o.price_usd,
          ((stock.filter fun r => decide (r.ticker = "^GSPC")).find?
            (fun r => decide (r.date = o.date))).map StockPriceRow.close,
          ((stock.filter fun r => decide (r.ticker = "^NSEI")).find?
            (fun r => decide (r.date = o.date))).map StockPriceRow.close⟩) := by
    unfold snapshot_query
    dsimp only
    rw [leftJoinOn_of_nodup _ _ _ _ hbd, leftJoinOn_of_nodup _ _ _ _ hsd,
      leftJoinOn_of_nodup _ _ _ _ hnd, List.map_map, List.map_map,
      List.filter_map]
    show (List.insertionSort
        (leBy fun p : ((OilPriceRow × Option CryptoPriceRow) ×
          Option StockPriceRow) × Option StockPriceRow => p.1.1.1.date)
        ((oil.filter fun o => decide (startS ≤ o.date ∧ o.date ≤ endS)).map
          (fun o : OilPriceRow =>
            (((o, (crypto.filter fun r => decide (r.coin_id = "bitcoin")).find?
                (fun y => decide (y.date = o.date))),
              (stock.filter fun r => decide (r.ticker = "^GSPC")).find?
                (fun y => decide (y.date = o.date))),
              (stock.filter fun r => decide (r.ticker = "^NSEI")).find?
                (fun y => decide (y.date = o.date)))))).map
        (fun p => (⟨p.1.1.1.date, (p.1.1.2).map CryptoPriceRow.price_usd,
          p.1.1.1.price_usd, (p.1.2).map StockPriceRow.close,
          (p.2).map StockPriceRow.close⟩ : SnapshotRow)) = _
    rw [sort_map_by_date
      (fun o : OilPriceRow =>
        (((o, (crypto.filter fun r => decide (r.coin_id = "bitcoin")).find?
            (fun y => decide (y.date = o.date))),
          (stock.filter fun r => decide (r.ticker = "^GSPC")).find?
            (fun y => decide (y.date = o.date))),
          (stock.filter fun r => decide (r.ticker = "^NSEI")).find?
            (fun y => decide (y.date = o.date))))
      (fun p : ((OilPriceRow × Option CryptoPriceRow) ×
        Option StockPriceRow) × Option StockPriceRow => p.1.1.1.date)
      (fun _ => rfl), List.map_map]
    rfl
  refine ⟨hmain, ?_, ?_⟩
  · rw [hmain, List.length_map, List.length_insertionSort]
  · intro o hoil hrange
    rw [hmain, List.map_map]
    have h1 : o ∈ List.insertionSort (leBy OilPriceRow.date)
        (oil.filter fun o => decide (startS ≤ o.date ∧ o.date ≤ endS)) :=
      (List.mem_insertionSort _).mpr
        (List.mem_filter.mpr ⟨hoil, by simpa using hrange⟩)
    exact List.mem_map.mpr ⟨o, h1, rfl⟩

/-- Witness for C8 at concrete tables where the second commodity date has no
matching equity or crypto row. -/
theorem C8_commodity_equity_left_join_witness :
    ((oilW.map oilKey).Nodup ∧ (cryptoW.map cryptoKey).Nodup ∧
      (stockW.map stockKey).Nodup) ∧
    (snapshot_query oilW cryptoW stockW "2024-01-01" "2024-12-31").length =
      (oilW.filter fun o =>
        decide ("2024-01-01" ≤ o.date ∧ o.date ≤ "2024-12-31")).length ∧
    ∀ o ∈ oilW, "2024-01-01" ≤ o.date ∧ o.date ≤ "2024-12-31" →
      o.date ∈ (snapshot_query oilW cryptoW stockW "2024-01-01"
        "2024-12-31").map SnapshotRow.date := by
  have h := C8_commodity_equity_left_join oilW cryptoW stockW
    "2024-01-01" "2024-12-31" (by decide) (by decide) (by decide)
  exact ⟨⟨by decide, by decide, by decide⟩, h.2.1, h.2.2⟩
